import Mathlib

/-!
Verification of the audio-feeder chapter resolution, segmentation and
rendering pipeline (src/audio_feeder).  The Python data model and the pure
parts of the algorithms are embedded shallowly: times and durations are
rationals, Python dicts are ordered association lists, file-system paths are
represented by their name strings, and fallible code (Python exceptions)
returns Option.
-/

namespace AudioFeeder

/-- File-system paths are modelled by their final-component name string; the
    embedded code only needs equality of paths and the file name. -/
abbrev Path := String

/-- Python dict of string tags, modelled as an ordered association list
    (mirrors dict insertion order). -/
abbrev Tags := List (String × String)

/-- Python dict.get: first binding of the key, if any. -/
def tagsGet (tags : Tags) (key : String) : Option String :=
  (tags.find? fun kv => kv.1 == key).map Prod.snd

/-- Python dict assignment d[key] = val: overwrite in place if the key is
    present, else append. -/
def dictSet (d : Tags) (key val : String) : Tags :=
  if d.any fun kv => kv.1 == key then
    d.map fun kv => if kv.1 == key then (kv.1, val) else kv
  else d ++ [(key, val)]

/-- Python dict.update semantics. -/
def dictUpdate (d : Tags) (kvs : Tags) : Tags :=
  kvs.foldl (fun acc kv => dictSet acc kv.1 kv.2) d

/-- Embedding of file_probe.ChapterInfo: chapter number, start/end in
    seconds, optional title and a tag mapping. -/
structure ChapterInfo where
  num : Int
  start_time : ℚ
  end_time : ℚ
  title : Option String := none
  tags : Tags := []
  deriving DecidableEq

instance : Inhabited ChapterInfo := ⟨⟨0, 0, 0, none, []⟩⟩

/-- ChapterInfo.duration property: end − start. -/
def ChapterInfo.duration (c : ChapterInfo) : ℚ := c.end_time - c.start_time

/-- Embedding of the JSON chapter document produced by ChapterInfo.to_json.
    The 4-decimal serialized strings are represented by the rationals they
    denote. -/
structure JSONChapterType where
  id : Int
  start_time : ℚ
  end_time : ℚ
  tags : Option Tags := none
  deriving DecidableEq

/-- Value denoted by Python 0.4f formatting: the input rounded to 4 decimal
    places (float formatting resolves exact half-ties to even; the half-up
    convention used here differs only on exact ties, which the round-trip
    claims do not depend on). -/
def round4 (x : ℚ) : ℚ := (round (x * 10000) : ℤ) / 10000

/-- ChapterInfo.to_json: id, start/end serialized to 4 decimals, and the tags
    only when non-empty.  The title field is not serialized. -/
def ChapterInfo.to_json (c : ChapterInfo) : JSONChapterType :=
  { id := c.num
    start_time := round4 c.start_time
    end_time := round4 c.end_time
    tags := if c.tags = [] then none else some c.tags }

/-- ChapterInfo.from_json: title is recovered from a title tag (and removed
    from the tags) if present, else None. -/
def ChapterInfo.from_json (j : JSONChapterType) : ChapterInfo :=
  { num := j.id, start_time := j.start_time, end_time := j.end_time,
    title := tagsGet (j.tags.getD []) "title",
    tags :=
      match tagsGet (j.tags.getD []) "title" with
      | none => j.tags.getD []
      | some _ => (j.tags.getD []).filter fun kv => !(kv.1 == "title") }

/-- Embedding of file_probe.FormatInfo. -/
structure FormatInfo where
  filename : Option String := none
  format_name : Option String := none
  format_long_name : Option String := none
  start_time : Option ℚ := none
  duration : Option ℚ := none
  size : Option Int := none
  bit_rate : Option Int := none
  tags : Tags := []
  deriving DecidableEq

instance : Inhabited FormatInfo := ⟨{}⟩

/-- Embedding of file_probe.FileInfo.  chapters = none models the Python
    None (no embedded chapter metadata), distinct from an empty list. -/
structure FileInfo where
  format_info : FormatInfo
  chapters : Option (List ChapterInfo) := none
  deriving DecidableEq

instance : Inhabited FileInfo := ⟨{}, none⟩

/-- The chapter list a Python truthiness test sees: empty for both None and
    the empty list. -/
def FileInfo.chaptersList (fi : FileInfo) : List ChapterInfo :=
  fi.chapters.getD []

/-- Helper for the in-place update new_chapters[-1] = evolve(..., end_time
    + delta) in _merge_file_infos. -/
def extendLastEnd (delta : ℚ) : List ChapterInfo → List ChapterInfo
  | [] => []
  | [c] => [{ c with end_time := c.end_time + delta }]
  | c :: c2 :: cs => c :: extendLastEnd delta (c2 :: cs)

/-- Chapter computation of _merge_file_infos: start from the left chapters;
    if the right operand has chapters and its first one starts after 0,
    extend the last left chapter's end by that offset; then append the right
    chapters shifted by the left duration. -/
def mergeChapters (d1 : ℚ) (base : List ChapterInfo) :
    List ChapterInfo → List ChapterInfo
  | [] => base
  | c2 :: rest2 =>
    (if base ≠ [] ∧ 0 < c2.start_time then extendLastEnd c2.start_time base
     else base) ++
      (c2 :: rest2).map fun c =>
        { c with start_time := c.start_time + d1, end_time := c.end_time + d1 }

/-- Embedding of m4btools._merge_file_infos.  Returns none when either
    format duration is missing (the Python code raises ValueError). -/
def mergeFileInfos (f1 f2 : FileInfo) : Option FileInfo :=
  match f1.format_info.duration, f2.format_info.duration with
  | some d1, some d2 =>
    let fi1 := f1.format_info
    let fi2 := f2.format_info
    some
      { format_info :=
          { start_time := fi1.start_time
            duration := some (d1 + d2)
            size := none
            bit_rate := if fi1.bit_rate = fi2.bit_rate then fi1.bit_rate else none
            tags := dictUpdate (dictUpdate [] fi2.tags) fi1.tags }
        chapters := some (mergeChapters d1 (f1.chapters.getD []) (f2.chapters.getD [])) }
  | _, _ => none

/-- Embedding of m4btools.FileSubset; none bounds mean the file's natural
    boundary.  The end bound is called stop because end is reserved. -/
structure FileSubset where
  path : Path
  start : Option ℚ := none
  stop : Option ℚ := none
  deriving DecidableEq

/-- Embedding of m4btools.RenderJob (the executor only needs the subsets and
    the synthesized output FileInfo). -/
structure RenderJob where
  file_inputs : List FileSubset
  out_path : Path
  out_file_info : FileInfo
  deriving DecidableEq

/-- RenderJob.is_copy_job: exactly one subset, start None or 0, end None. -/
def RenderJob.is_copy_job (job : RenderJob) : Bool :=
  match job.file_inputs with
  | [fs] => decide (fs.start = none ∨ fs.start = some 0) && decide (fs.stop = none)
  | _ => false

/-- Python title computation for the per-file duration fallback in
    get_multipath_chapter_info: a title tag if non-empty, else the file name,
    with the track tag appended when the name does not end in a decimal digit.
    Returns none when the file name is empty (Python raises IndexError on
    title[-1]); isDigit stands in for str.isdecimal (non-ASCII decimal digits
    do not occur in the file names in scope). -/
def fallbackTitle (tags : Tags) (name : String) : Option String :=
  let t0 := (tagsGet tags "title").getD ""
  if t0 ≠ "" then some t0
  else
    match name.data.getLast? with
    | none => none
    | some ch =>
      if ¬ ch.isDigit ∧ tags.any (fun kv => kv.1 == "track") then
        some (name ++ " " ++ (tagsGet tags "track").getD "")
      else some name

/-- The corruption heuristic exactly as written in get_multipath_chapter_info:
    any((duration is not None) and c.start_time > duration for c in chapters). -/
def badChapterCheck (fi : FileInfo) : Bool :=
  fi.chaptersList.any fun c =>
    fi.format_info.duration.isSome &&
      decide (fi.format_info.duration.getD 0 < c.start_time)

/-- Number assigned to the chapter emitted in resolver state cnum: the
    chapter keeps its own number when it is the very first one emitted,
    otherwise the previous number plus one. -/
def nextNumAfter : Option Int → ChapterInfo → Int
  | none, c => c.num
  | some k, _ => k + 1

/-- Number assigned to a synthetic fallback chapter emitted in state cnum:
    1 when it is the very first chapter, else the previous number plus one. -/
def nextNumOpt : Option Int → Int
  | none => 1
  | some k => k + 1

/-- The renumbering loop threading chapter_num through one file's embedded
    chapters: the first chapter ever emitted keeps its own num, every later
    one gets the previous number plus one.  Returns the renumbered chapters
    and the final chapter_num. -/
def renumberFrom : Option Int → List ChapterInfo → List ChapterInfo × Option Int
  | cnum, [] => ([], cnum)
  | cnum, c :: cs =>
    let n : Int := nextNumAfter cnum c
    let r := renumberFrom (some n) cs
    ({ c with num := n } :: r.1, r.2)

/-- Loop body of get_multipath_chapter_info, threading the chapter_num state
    over the file list.  File infos are supplied alongside the paths (the
    all-provided case of the Python file_infos parameter; probing is I/O).
    Returns none when the fallback path fails: the file name is empty (title
    IndexError) or the format has no duration (ValueError). -/
def getMultipathAux (fallBack : Bool) :
    Option Int → List (Path × FileInfo) → Option (List (Path × ChapterInfo))
  | _, [] => some []
  | cnum, (p, fi) :: rest =>
    if fi.chaptersList ≠ [] ∧ badChapterCheck fi = false then
      let r := renumberFrom cnum fi.chaptersList
      (getMultipathAux fallBack r.2 rest).map
        (fun out => r.1.map (fun c => (p, c)) ++ out)
    else if fallBack then
      let n : Int := nextNumOpt cnum
      match fi.format_info.duration, fallbackTitle fi.format_info.tags p with
      | some d, some t =>
        (getMultipathAux fallBack (some n) rest).map
          (fun out =>
            (p, { num := n, start_time := 0, end_time := d, title := some t,
                  tags := fi.format_info.tags }) :: out)
      | _, _ => none
    else
      getMultipathAux fallBack cnum rest

/-- Embedding of file_probe.get_multipath_chapter_info. -/
def getMultipathChapterInfo (fallBack : Bool) (files : List (Path × FileInfo)) :
    Option (List (Path × ChapterInfo)) :=
  getMultipathAux fallBack none files

/-- Specification-side usability condition on one file, following the spec
    wording with the corrected direction: the file has chapters and none of
    them starts after the file's own duration (no condition when the duration
    is unknown). -/
def usableChaptersB (fi : FileInfo) : Bool :=
  decide (fi.chaptersList ≠ []) &&
    fi.chaptersList.all fun c =>
      match fi.format_info.duration with
      | none => true
      | some d => decide (c.start_time ≤ d)

/-- Specification-side item stream of the resolver, before global numbering:
    for each file, its embedded chapters (marked true) when usable, else the
    one synthetic whole-file chapter (marked false, number assigned later)
    when fallback is enabled, else nothing. -/
def specItems (fallBack : Bool) :
    List (Path × FileInfo) → Option (List (Path × ChapterInfo × Bool))
  | [] => some []
  | (p, fi) :: rest =>
    if usableChaptersB fi then
      (specItems fallBack rest).map
        (fun out => fi.chaptersList.map (fun c => (p, c, true)) ++ out)
    else if fallBack then
      match fi.format_info.duration, fallbackTitle fi.format_info.tags p with
      | some d, some t =>
        (specItems fallBack rest).map
          (fun out =>
            (p, { num := 0, start_time := 0, end_time := d, title := some t,
                  tags := fi.format_info.tags }, false) :: out)
      | _, _ => none
    else
      specItems fallBack rest

/-- First number of the single global monotonic sequence: the first emitted
    chapter keeps its own embedded number, or 1 when it is synthetic. -/
def startNum : List (Path × ChapterInfo × Bool) → Int
  | [] => 1
  | (_, c, true) :: _ => c.num
  | (_, _, false) :: _ => 1

/-- Assigns consecutive numbers s, s+1, s+2, ... to an item stream. -/
def applyNumbering (s : Int) :
    List (Path × ChapterInfo × Bool) → List (Path × ChapterInfo)
  | [] => []
  | (p, c, _) :: rest => (p, { c with num := s }) :: applyNumbering (s + 1) rest

/-- Assigns consecutive numbers s, s+1, s+2, ... to a chapter list. -/
def numberChapters (s : Int) : List ChapterInfo → List ChapterInfo
  | [] => []
  | c :: cs => { c with num := s } :: numberChapters (s + 1) cs

/-- Output file path of one chapter-split job.  The zero-padding of the
    numeral (cosmetic, computed by _zero_padding_format) is elided. -/
def chapterOutName (outPath baseName : String) (num : Int) (ext : String) : Path :=
  outPath ++ "/" ++ baseName ++ toString num ++ ext

/-- Loop body of m4btools.calculate_chapter_splits over the resolved
    (path, chapter) list, carrying the grown job pool and the last file seen.
    lookup plays the role of the probed file_infos dict.  none models the
    Python error paths: a missing file info (KeyError), a missing duration
    (TypeError in the end-tolerance test), or a popped job without chapters
    (assertion failure). -/
def chapterSplitLoop (lookup : Path → Option FileInfo)
    (outPath baseName ext : String) :
    List RenderJob → Option Path → List (Path × ChapterInfo) →
      Option (List RenderJob)
  | pool, _, [] => some pool
  | pool, lastFile, (fpath, chapter) :: rest =>
    let poolStep : Option (List RenderJob) :=
      if lastFile ≠ some fpath ∧ 0 < chapter.start_time ∧ pool ≠ [] then
        match pool.getLast? with
        | none => none
        | some oldJob =>
          match oldJob.out_file_info.chapters with
          | some (oldChapter :: _) =>
            let newSubsets := oldJob.file_inputs ++
              [{ path := fpath, start := none, stop := some chapter.start_time }]
            let newFileInfo : FileInfo :=
              { oldJob.out_file_info with
                chapters := some [{ oldChapter with
                  end_time := oldChapter.end_time + chapter.start_time }] }
            some (pool.dropLast ++
              [{ file_inputs := newSubsets, out_path := oldJob.out_path,
                 out_file_info := newFileInfo }])
          | _ => none
      else some pool
    match poolStep with
    | none => none
    | some pool2 =>
      match lookup fpath with
      | none => none
      | some fi =>
        match fi.format_info.duration with
        | none => none
        | some d =>
          let endTime : Option ℚ :=
            if |chapter.end_time - d| < 1 / 4 then none else some chapter.end_time
          let subset : FileSubset :=
            { path := fpath, start := some chapter.start_time, stop := endTime }
          let fileInfo : FileInfo :=
            { format_info :=
                { fi.format_info with duration := some chapter.duration, size := none }
              chapters := some
                [{ chapter with start_time := 0, end_time := chapter.duration }] }
          let job : RenderJob :=
            { file_inputs := [subset]
              out_path := chapterOutName outPath baseName chapter.num ext
              out_file_info := fileInfo }
          chapterSplitLoop lookup outPath baseName ext
            (pool2 ++ [job]) (some fpath) rest

/-- Embedding of the pure core of m4btools.calculate_chapter_splits: files
    are supplied with their probed FileInfo (probing is I/O).  none models
    the Python max() ValueError on an empty resolved chapter list. -/
def calculateChapterSplits (files : List (Path × FileInfo))
    (outPath baseName ext : String) : Option (List RenderJob) :=
  match getMultipathChapterInfo false files with
  | none => none
  | some chapterInfo =>
    if chapterInfo = [] then none
    else
      chapterSplitLoop
        (fun p => (files.find? fun pf => pf.1 == p).map Prod.snd)
        outPath baseName ext [] none chapterInfo

/-- Externally visible actions of one Renderer.trigger_rendering invocation,
    in program order. -/
inductive RenderEvent where
  | admitKey
  | clearStale
  | markDefault
  | submitJob (k : Nat)
  | spawnCallback
  | writeMetadata
  deriving DecidableEq

/-- Shallow embedding of the success path of Renderer.trigger_rendering as
    the ordered list of its externally visible actions: the unlocked
    admission test and early return, the locked ACTIVE_JOBS.add, clearing
    stale output, either marking the directory as default (when every
    planned job is a copy job) or submitting every job to the executor,
    spawning the completion-callback thread, and finally writing the
    .file_metadata sidecar.  Hash computation and the exception handler
    (which only releases admission) are elided. -/
def triggerEvents (keyActive renderComplete : Bool) (jobs : List RenderJob) :
    List RenderEvent :=
  if keyActive || renderComplete then []
  else
    [RenderEvent.admitKey, RenderEvent.clearStale] ++
      (if jobs.all RenderJob.is_copy_job then [RenderEvent.markDefault]
       else (List.range jobs.length).map RenderEvent.submitJob) ++
      [RenderEvent.spawnCallback, RenderEvent.writeMetadata]

/-- One thread executing the admission prologue of trigger_rendering for a
    fixed key.  pc 0: before the membership test of line 111 (performed
    WITHOUT holding JOB_LOCK); pc 1: past the test, before the locked
    ACTIVE_JOBS.add; pc 2: admitted, before planning and submitting its job
    batch; pc 3: returned. -/
structure TriggerThread where
  pc : Nat
  admitted : Bool
  deriving DecidableEq

/-- Process state for two concurrent trigger_rendering calls on the same
    (entry, mode) key: whether the key is in ACTIVE_JOBS, whether the
    .render_complete marker exists, how many job batches have been
    submitted, and the two threads. -/
structure AdmissionState where
  keyActive : Bool
  renderComplete : Bool
  batches : Nat
  t1 : TriggerThread
  t2 : TriggerThread
  deriving DecidableEq

/-- One atomic step of the chosen thread.  The membership test is its own
    step because the code performs it outside JOB_LOCK; the add is one step
    because it holds the lock. -/
def threadStep (s : AdmissionState) (useT1 : Bool) : AdmissionState :=
  let th := if useT1 then s.t1 else s.t2
  let next :=
    match th.pc with
    | 0 =>
      if s.keyActive || s.renderComplete then
        ({ th with pc := 3 }, s.keyActive, 0)
      else
        ({ th with pc := 1 }, s.keyActive, 0)
    | 1 => ({ th with pc := 2, admitted := true }, true, 0)
    | 2 => ({ th with pc := 3 }, s.keyActive, 1)
    | _ => (th, s.keyActive, 0)
  { s with
    keyActive := next.2.1
    batches := s.batches + next.2.2
    t1 := if useT1 then next.1 else s.t1
    t2 := if useT1 then s.t2 else next.1 }

/-- Runs a schedule (true: thread 1 steps, false: thread 2 steps). -/
def runSchedule (init : AdmissionState) (sched : List Bool) : AdmissionState :=
  sched.foldl threadStep init

/-- Initial state: key not rendering, not complete, no batch submitted. -/
def initAdmission : AdmissionState :=
  { keyActive := false, renderComplete := false, batches := 0
    t1 := { pc := 0, admitted := false }, t2 := { pc := 0, admitted := false } }

/-- Embedding of segmenter._MemoEntry. -/
structure MemoEntry where
  score : ℚ
  prev : Option Nat
  deriving DecidableEq

instance : Inhabited MemoEntry := ⟨⟨0, none⟩⟩

/-- Order on the optional previous-split field used by the attrs-generated
    comparison.  Entries compared by Python min always carry some value, so
    the none cases are unreachable there. -/
def optNatLt : Option Nat → Option Nat → Bool
  | none, none => false
  | none, some _ => true
  | some _, none => false
  | some m, some n => decide (m < n)

/-- The strict lexicographic (score, previous_split) order generated by
    attrs order=True on _MemoEntry. -/
def entryLt (a b : MemoEntry) : Bool :=
  decide (a.score < b.score) ||
    (decide (a.score = b.score) && optNatLt a.prev b.prev)

/-- Python min over a non-empty sequence: the first element minimal in the
    strict order. -/
def pyMin (c : MemoEntry) (cs : List MemoEntry) : MemoEntry :=
  cs.foldl (fun acc e => if entryLt e acc then e else acc) c

/-- Python slice values[j:i]. -/
def pySlice (values : List α) (j i : Nat) : List α :=
  (values.drop j).take (i - j)

/-- The memo table of segmenter.segment after processing positions 0..i:
    entry 0 is the empty-segment seed, entry k (1 ≤ k ≤ i) is the minimum
    over j < k of the memoized score at j plus the cost of values[j:k],
    recording the minimizing j. -/
def memoTable (cost : List α → ℚ) (values : List α) : Nat → List MemoEntry
  | 0 => [⟨0, none⟩]
  | i + 1 =>
    let t := memoTable cost values i
    let candidates := (List.range (i + 1)).map fun j =>
      MemoEntry.mk ((t.getD j default).score + cost (pySlice values j (i + 1))) (some j)
    t ++ [match candidates with
          | [] => default
          | c :: cs => pyMin c cs]

/-- Entry of the fully populated memo table at position i. -/
def memoAt (cost : List α → ℚ) (values : List α) (i : Nat) : MemoEntry :=
  (memoTable cost values i).getD i default

/-- The back-pointer walk of segmenter.segment: start at position i and
    follow previous_split pointers until the seed entry.  fuel bounds the
    walk; fuel ≥ i suffices because every pointer strictly decreases. -/
def backtrack (cost : List α → ℚ) (values : List α) : Nat → Nat → List Nat
  | 0, i => [i]
  | fuel + 1, i =>
    match (memoAt cost values i).prev with
    | none => [i]
    | some j => i :: backtrack cost values fuel j

/-- Cuts values at consecutive break positions: zip breaks[:-1] with
    breaks[1:] and slice between each pair. -/
def ascSlices (values : List α) (breaks : List Nat) : List (List α) :=
  (breaks.dropLast.zip breaks.tail).map fun se => pySlice values se.1 se.2

/-- Embedding of segmenter.segment: populate the memo table, reconstruct the
    break positions backwards, reverse them and cut the input at consecutive
    breaks. -/
def segment (values : List α) (cost : List α → ℚ) : List (List α) :=
  ascSlices values (backtrack cost values values.length values.length).reverse

/-- An ordered partition of l into contiguous non-empty groups. -/
def IsSegmentation (P : List (List α)) (l : List α) : Prop :=
  P.flatten = l ∧ ∀ g ∈ P, g ≠ []

/-- Total cost of a partition: the sum of the cost of its groups. -/
def totalCost (cost : List α → ℚ) (P : List (List α)) : ℚ :=
  (P.map cost).sum

/-- Time-shift of one chapter by d seconds. -/
def shiftChapter (d : ℚ) (c : ChapterInfo) : ChapterInfo :=
  { c with start_time := c.start_time + d, end_time := c.end_time + d }

/-- Specification-side description of what merging does to the left
    operand's chapters: they are kept unchanged, except that when the right
    operand's first chapter starts after 0 the left operand's last chapter
    has its end time extended by that offset. -/
def specAdjustLeft (as bs : List ChapterInfo) : List ChapterInfo :=
  match bs.head? with
  | none => as
  | some c2 =>
    if 0 < c2.start_time then
      match as.getLast? with
      | none => as
      | some la => as.dropLast ++ [{ la with end_time := la.end_time + c2.start_time }]
    else as

/-- Concrete chapter used by the C10 witness: its title is set but its tags
    hold no title key. -/
def chapC10 : ChapterInfo := ⟨7, 1 / 3, 5 / 2, some "Chap", [("artist", "X")]⟩

/-- Left merge operand for the C5 counterexample: duration 10, one chapter
    covering the whole file. -/
def leftC5 : FileInfo :=
  { format_info := { duration := some 10 }, chapters := some [⟨1, 0, 10, none, []⟩] }

/-- Right merge operand for the C5 counterexample: duration 5, one chapter
    starting at 2, so merging extends the left chapter's end by 2. -/
def rightC5 : FileInfo :=
  { format_info := { duration := some 5 }, chapters := some [⟨1, 2, 5, none, []⟩] }

/-- Left merge operand for the C6 counterexample: one chapter numbered 1. -/
def leftC6 : FileInfo :=
  { format_info := { duration := some 10 }, chapters := some [⟨1, 0, 10, none, []⟩] }

/-- Right merge operand for the C6 counterexample: also numbered 1, and
    starting at 0 so no boundary folding happens. -/
def rightC6 : FileInfo :=
  { format_info := { duration := some 5 }, chapters := some [⟨1, 0, 5, none, []⟩] }

/-- File for the C4 counterexample: duration 10 but its single embedded
    chapter ends at 15, past the end of the file. -/
def fileC4 : FileInfo :=
  { format_info := { duration := some 10 }, chapters := some [⟨3, 5, 15, none, []⟩] }

/-- File for the C7 witness: usable chapters, one of them degenerate
    (end = start = 5). -/
def fileC7 : FileInfo :=
  { format_info := { duration := some 10 }
    chapters := some [⟨1, 0, 5, none, []⟩, ⟨2, 5, 5, none, []⟩] }

/-- Chapterless files for the C8 witness, durations 10 and 20. -/
def fileC8a : FileInfo := { format_info := { duration := some 10 }, chapters := none }

/-- Second chapterless file for the C8 witness (empty chapter list rather
    than none, exercising the other falsy case). -/
def fileC8b : FileInfo := { format_info := { duration := some 20 }, chapters := some [] }

/-- File list of the C8 witness. -/
def filesC8 : List (Path × FileInfo) := [("f1", fileC8a), ("f2", fileC8b)]

/-- Resolver output on the C8 witness files: one synthetic chapter per file,
    numbered 1 and 2, spanning (0, 10) and (0, 20). -/
def outC8 : List (Path × ChapterInfo) :=
  [("f1", ⟨1, 0, 10, some "f1", []⟩), ("f2", ⟨2, 0, 20, some "f2", []⟩)]

/-- Starting number of the emitted sequence as a function of the resolver
    state: the next number when chapters were already emitted, else the
    first-item rule of startNum. -/
def baseOf : Option Int → List (Path × ChapterInfo × Bool) → Int
  | some k, _ => k + 1
  | none, items => startNum items

/-- Concrete cost function for the C1 witness: squared distance of the group
    total from a 60-second target (a rational-valued stand-in for the
    asymmetric cost, which the segmenter treats as opaque). -/
def costW (l : List ℚ) : ℚ := (l.sum - 60) ^ 2

/-- A job that is not a copy job (its single subset has explicit bounds),
    used to drive the C2 trace. -/
def nonCopyJob : RenderJob :=
  { file_inputs := [{ path := "in.mp3", start := some 3, stop := some 5 }]
    out_path := "out.mp3", out_file_info := { format_info := {} } }

/-! Theorems.  Helper lemmas come first, then one theorem per claim (with
    counterexamples and witnesses where required). -/

theorem extendLastEnd_eq (delta : ℚ) :
    ∀ (cs : List ChapterInfo) (la : ChapterInfo), cs.getLast? = some la →
      extendLastEnd delta cs =
        cs.dropLast ++ [{ la with end_time := la.end_time + delta }]
  | [], la => by simp
  | [c], la => by
    intro h
    simp only [List.getLast?_singleton, Option.some.injEq] at h
    subst h
    simp [extendLastEnd]
  | c :: c2 :: cs, la => by
    intro h
    rw [List.getLast?_cons_cons] at h
    have ih := extendLastEnd_eq delta (c2 :: cs) la h
    simp only [extendLastEnd, ih, List.dropLast_cons₂, List.cons_append]

theorem extendLastEnd_map_num (delta : ℚ) :
    ∀ cs : List ChapterInfo,
      (extendLastEnd delta cs).map ChapterInfo.num = cs.map ChapterInfo.num
  | [] => by simp [extendLastEnd]
  | [c] => by simp [extendLastEnd]
  | c :: c2 :: cs => by
    simp only [extendLastEnd, List.map_cons, List.cons.injEq, true_and]
    exact extendLastEnd_map_num delta (c2 :: cs)

theorem mergeChapters_eq (d1 : ℚ) (base bs : List ChapterInfo) :
    mergeChapters d1 base bs =
      specAdjustLeft base bs ++ bs.map (shiftChapter d1) := by
  cases bs with
  | nil => simp [mergeChapters, specAdjustLeft]
  | cons c2 rest2 =>
    by_cases hgap : 0 < c2.start_time
    · by_cases hbase : base = []
      · subst hbase
        simp [mergeChapters, specAdjustLeft, hgap, shiftChapter]
      · have hla := List.getLast?_eq_getLast base hbase
        simp only [mergeChapters, specAdjustLeft, List.head?_cons, hgap, hbase,
          ne_eq, not_false_iff, and_true, if_true, if_pos, hla,
          extendLastEnd_eq c2.start_time base _ hla]
        simp [shiftChapter]
    · simp [mergeChapters, specAdjustLeft, hgap, shiftChapter]

theorem mergeChapters_map_num (d1 : ℚ) (base bs : List ChapterInfo) :
    (mergeChapters d1 base bs).map ChapterInfo.num =
      base.map ChapterInfo.num ++ bs.map ChapterInfo.num := by
  cases bs with
  | nil => simp [mergeChapters]
  | cons c2 rest2 =>
    show ((if base ≠ [] ∧ 0 < c2.start_time then extendLastEnd c2.start_time base
      else base) ++ _).map ChapterInfo.num = _
    split_ifs with hsplit <;>
      simp [List.map_append, extendLastEnd_map_num, Function.comp_def]

theorem branch_cond_iff (fi : FileInfo) :
    (fi.chaptersList ≠ [] ∧ badChapterCheck fi = false) ↔ usableChaptersB fi = true := by
  unfold badChapterCheck usableChaptersB
  cases hd : fi.format_info.duration with
  | none => simp [hd]
  | some d => simp [hd, not_lt]

theorem renumberFrom_spec :
    ∀ (cs : List ChapterInfo) (cnum : Option Int) (c : ChapterInfo),
      renumberFrom cnum (c :: cs) =
        (numberChapters (nextNumAfter cnum c) (c :: cs),
         some (nextNumAfter cnum c + cs.length))
  | [], cnum, c => by
    simp [renumberFrom, numberChapters]
  | c2 :: cs2, cnum, c => by
    have hs := renumberFrom_spec cs2 (some (nextNumAfter cnum c)) c2
    have hstep : renumberFrom cnum (c :: c2 :: cs2) =
        ({ c with num := nextNumAfter cnum c } ::
          (renumberFrom (some (nextNumAfter cnum c)) (c2 :: cs2)).1,
         (renumberFrom (some (nextNumAfter cnum c)) (c2 :: cs2)).2) := rfl
    rw [hstep, hs]
    simp only [numberChapters, Prod.mk.injEq, List.length_cons,
      Option.some.injEq]
    have hnext : nextNumAfter (some (nextNumAfter cnum c)) c2 =
        nextNumAfter cnum c + 1 := rfl
    rw [hnext]
    refine ⟨rfl, ?_⟩
    push_cast
    ring

theorem applyNumbering_append (s : Int) (l1 l2 : List (Path × ChapterInfo × Bool)) :
    applyNumbering s (l1 ++ l2) =
      applyNumbering s l1 ++ applyNumbering (s + l1.length) l2 := by
  induction l1 generalizing s with
  | nil => simp [applyNumbering]
  | cons x l1 ih =>
    obtain ⟨p, c, b⟩ := x
    have harith : s + 1 + (l1.length : Int) = s + ((l1.length : Int) + 1) := by
      ring
    simp only [List.cons_append, applyNumbering, List.append_eq, ih,
      List.length_cons, List.cons.injEq, true_and, Nat.cast_add, Nat.cast_one,
      harith]

theorem applyNumbering_map_chapters (s : Int) (p : Path) (flag : Bool)
    (cs : List ChapterInfo) :
    applyNumbering s (cs.map fun c => (p, c, flag)) =
      (numberChapters s cs).map fun c => (p, c) := by
  induction cs generalizing s with
  | nil => simp [applyNumbering, numberChapters]
  | cons c cs ih => simp [applyNumbering, numberChapters, ih]

theorem numberChapters_length (s : Int) (cs : List ChapterInfo) :
    (numberChapters s cs).length = cs.length := by
  induction cs generalizing s <;> simp [numberChapters, *]

theorem numberChapters_mem :
    ∀ (cs : List ChapterInfo) (s : Int) (c : ChapterInfo), c ∈ cs →
      ∃ n, ({ c with num := n } : ChapterInfo) ∈ numberChapters s cs
  | [], _, _ => fun h => absurd h (List.not_mem_nil _)
  | c0 :: cs, s, c => fun h => by
    rcases List.mem_cons.mp h with h1 | h2
    · subst h1
      exact ⟨s, List.mem_cons_self _ _⟩
    · obtain ⟨n, hn⟩ := numberChapters_mem cs (s + 1) c h2
      exact ⟨n, List.mem_cons_of_mem _ hn⟩

theorem getMultipathAux_spec (fallBack : Bool) :
    ∀ (files : List (Path × FileInfo)) (cnum : Option Int),
      getMultipathAux fallBack cnum files =
        (specItems fallBack files).map fun items =>
          applyNumbering (baseOf cnum items) items
  | [], cnum => by simp [getMultipathAux, specItems, applyNumbering]
  | (p, fi) :: rest, cnum => by
    by_cases hcond : usableChaptersB fi = true
    · have hc := (branch_cond_iff fi).mpr hcond
      simp only [getMultipathAux, specItems, if_pos hc, if_pos hcond]
      match hcl : fi.chaptersList with
      | [] => exact absurd hcl hc.1
      | c :: cs =>
        rw [renumberFrom_spec]
        have ih := getMultipathAux_spec fallBack rest
          (some (nextNumAfter cnum c + cs.length))
        rw [ih]
        cases hrest : specItems fallBack rest with
        | none => simp
        | some items =>
          simp only [Option.map_some', Option.some.injEq]
          have hbase : baseOf cnum
              ((c :: cs).map (fun c => (p, c, true)) ++ items) =
              nextNumAfter cnum c := by
            cases cnum <;> simp [baseOf, startNum, nextNumAfter]
          rw [hbase, applyNumbering_append, applyNumbering_map_chapters]
          have hb2 : baseOf (some (nextNumAfter cnum c + (cs.length : Int)))
              items = nextNumAfter cnum c + (cs.length : Int) + 1 := rfl
          rw [hb2]
          congr 2
          simp only [List.length_map, List.length_cons]
          push_cast
          ring
    · have hc : ¬ (fi.chaptersList ≠ [] ∧ badChapterCheck fi = false) :=
        fun h => hcond ((branch_cond_iff fi).mp h)
      simp only [getMultipathAux, specItems, if_neg hc, if_neg hcond]
      cases hfb : fallBack with
      | false =>
        simp only [Bool.false_eq_true, if_false]
        exact getMultipathAux_spec false rest cnum
      | true =>
        simp only [if_true]
        cases hd : fi.format_info.duration with
        | none => rfl
        | some d =>
          cases ht : fallbackTitle fi.format_info.tags p with
          | none => rfl
          | some t =>
            have ih := getMultipathAux_spec true rest (some (nextNumOpt cnum))
            rw [ih]
            cases hrest : specItems true rest with
            | none => simp
            | some items =>
              simp only [Option.map_some', Option.some.injEq]
              have hbase : baseOf cnum
                  ((p, ({ num := 0, start_time := 0, end_time := d,
                          title := some t, tags := fi.format_info.tags } :
                    ChapterInfo), false) :: items) = nextNumOpt cnum := by
                cases cnum <;> simp [baseOf, startNum, nextNumOpt]
              rw [hbase]
              have hb2 : baseOf (some (nextNumOpt cnum)) items =
                  nextNumOpt cnum + 1 := rfl
              simp [applyNumbering, hb2]

/-- C9.  For every render job, classification yields copy if and only if the
    job has exactly one file subset whose start is None or 0 and whose end is
    None; any job with more subsets, a nonzero start, or an end bound is not
    a copy job. -/
theorem af_C9_copy_classification (job : RenderJob) :
    job.is_copy_job = true ↔
      ∃ fs, job.file_inputs = [fs] ∧
        (fs.start = none ∨ fs.start = some 0) ∧ fs.stop = none := by
  unfold RenderJob.is_copy_job
  match h : job.file_inputs with
  | [] => simp
  | [fs] =>
    simp only [Bool.and_eq_true, decide_eq_true_eq, List.cons.injEq, and_true]
    constructor
    · rintro ⟨h1, h2⟩
      exact ⟨fs, rfl, h1, h2⟩
    · rintro ⟨fs2, hfs2, h1, h2⟩
      obtain ⟨rfl, -⟩ := hfs2
      exact ⟨h1, h2⟩
  | fs1 :: fs2 :: rest => simp

/-- C10.  For a chapter whose tags hold no title key, the sidecar JSON
    round-trip preserves num and the start and end times at the serialized
    4-decimal precision, but loses the title: from_json(to_json c) has
    title = None even when c.title is set. -/
theorem af_C10_round_trip (c : ChapterInfo) (h : tagsGet c.tags "title" = none) :
    (ChapterInfo.from_json c.to_json).num = c.num ∧
    (ChapterInfo.from_json c.to_json).start_time = round4 c.start_time ∧
    (ChapterInfo.from_json c.to_json).end_time = round4 c.end_time ∧
    (ChapterInfo.from_json c.to_json).title = none := by
  have htags0 : tagsGet (c.to_json.tags.getD []) "title" = none := by
    unfold ChapterInfo.to_json
    by_cases hc : c.tags = []
    · simp [hc, tagsGet]
    · simpa [hc] using h
  exact ⟨rfl, rfl, rfl, htags0⟩

theorem af_C10_witness :
    tagsGet chapC10.tags "title" = none ∧
    ((ChapterInfo.from_json chapC10.to_json).num = chapC10.num ∧
     (ChapterInfo.from_json chapC10.to_json).start_time = round4 chapC10.start_time ∧
     (ChapterInfo.from_json chapC10.to_json).end_time = round4 chapC10.end_time ∧
     (ChapterInfo.from_json chapC10.to_json).title = none) :=
  ⟨by decide, af_C10_round_trip chapC10 (by decide)⟩

/-- C5 counterexample.  Merging leftC5 (one chapter (0,10)) with rightC5
    (one chapter (2,5)) does NOT leave the left operand's chapters unchanged:
    the left chapter's end time is extended from 10 to 12 to absorb the gap
    before the right operand's first chapter, so the claim that a's chapters
    appear unshifted before b's shifted chapters fails at this input. -/
theorem af_C5_counterexample :
    (mergeFileInfos leftC5 rightC5).bind FileInfo.chapters =
      some [⟨1, 0, 12, none, []⟩, ⟨1, 12, 15, none, []⟩] ∧
    (mergeFileInfos leftC5 rightC5).bind FileInfo.chapters ≠
      some (leftC5.chaptersList ++ [⟨1, 12, 15, none, []⟩]) := by
  with_unfolding_all decide

/-- C5 as amended.  For files with set durations, merge adds the durations
    and appends b's chapters shifted by a's duration after a's chapters,
    which are unchanged except that when b's first chapter starts after 0
    the last of a's chapters has its end time extended by that offset. -/
theorem af_C5_amended (a b : FileInfo) (d1 d2 : ℚ)
    (h1 : a.format_info.duration = some d1)
    (h2 : b.format_info.duration = some d2) :
    ∃ m, mergeFileInfos a b = some m ∧
      m.format_info.duration = some (d1 + d2) ∧
      m.chapters = some (specAdjustLeft a.chaptersList b.chaptersList ++
        b.chaptersList.map (shiftChapter d1)) := by
  unfold mergeFileInfos
  rw [h1, h2]
  refine ⟨_, rfl, rfl, ?_⟩
  show some (mergeChapters d1 (a.chapters.getD []) (b.chapters.getD [])) = _
  rw [mergeChapters_eq]
  rfl

theorem af_C5_amended_witness :
    leftC5.format_info.duration = some 10 ∧
    rightC5.format_info.duration = some 5 ∧
    ∃ m, mergeFileInfos leftC5 rightC5 = some m ∧
      m.format_info.duration = some (10 + 5) ∧
      m.chapters = some (specAdjustLeft leftC5.chaptersList rightC5.chaptersList ++
        rightC5.chaptersList.map (shiftChapter 10)) :=
  ⟨rfl, rfl, af_C5_amended leftC5 rightC5 10 5 rfl rfl⟩

/-- C6 counterexample.  Merging two files whose single chapters are both
    numbered 1 yields chapter numbers [1, 1], not a continuation [1, 2]:
    _merge_file_infos does not renumber the right operand's chapters. -/
theorem af_C6_counterexample :
    Option.map (List.map ChapterInfo.num)
        ((mergeFileInfos leftC6 rightC6).bind FileInfo.chapters) = some [1, 1] ∧
    Option.map (List.map ChapterInfo.num)
        ((mergeFileInfos leftC6 rightC6).bind FileInfo.chapters) ≠ some [1, 2] := by
  decide

/-- C6 as amended.  Merge time-shifts the right operand's chapters but does
    NOT renumber them: the merged chapter numbers are exactly a's numbers
    followed by b's original numbers. -/
theorem af_C6_amended (a b : FileInfo) (d1 d2 : ℚ)
    (h1 : a.format_info.duration = some d1)
    (h2 : b.format_info.duration = some d2) :
    ∃ m, mergeFileInfos a b = some m ∧
      m.chaptersList.map ChapterInfo.num =
        a.chaptersList.map ChapterInfo.num ++ b.chaptersList.map ChapterInfo.num := by
  unfold mergeFileInfos
  rw [h1, h2]
  refine ⟨_, rfl, ?_⟩
  show (mergeChapters d1 (a.chapters.getD []) (b.chapters.getD [])).map ChapterInfo.num = _
  rw [mergeChapters_map_num]
  rfl

theorem af_C6_amended_witness :
    leftC6.format_info.duration = some 10 ∧
    rightC6.format_info.duration = some 5 ∧
    ∃ m, mergeFileInfos leftC6 rightC6 = some m ∧
      m.chaptersList.map ChapterInfo.num =
        leftC6.chaptersList.map ChapterInfo.num ++
          rightC6.chaptersList.map ChapterInfo.num :=
  ⟨rfl, rfl, af_C6_amended leftC6 rightC6 10 5 rfl rfl⟩

/-- C4 counterexample.  fileC4 has duration 10 and a chapter ending at 15,
    past the end of the file; the claim's corruption heuristic (no chapter
    may END after the duration) predicts the embedded chapters are rejected,
    so with fallback disabled nothing would be emitted.  The code checks
    chapter STARTS instead, so it emits the embedded chapter unchanged. -/
theorem af_C4_counterexample :
    getMultipathChapterInfo false [("f", fileC4)] =
      some [("f", ⟨3, 5, 15, none, []⟩)] ∧
    fileC4.format_info.duration = some 10 ∧
    (⟨3, 5, 15, none, []⟩ : ChapterInfo) ∈ fileC4.chaptersList ∧
    (10 : ℚ) < 15 ∧
    getMultipathChapterInfo false [("f", fileC4)] ≠ some [] := by decide

/-- C3.  Evaluation of the admission race at the failing interleaving: both
    threads execute the unlocked ACTIVE_JOBS membership test of line 111
    before either performs the locked add, so both are admitted and two job
    batches are submitted for the same key — the claim's "at most one of the
    two callers is admitted, exactly one job batch" is violated. -/
theorem af_C3_race_evaluation :
    (runSchedule initAdmission [true, false, true, false, true, false]).batches = 2 ∧
    (runSchedule initAdmission [true, false, true, false, true, false]).t1.admitted = true ∧
    (runSchedule initAdmission [true, false, true, false, true, false]).t2.admitted = true := by
  decide

/-- C4 as amended.  Full characterization of the chapter resolver: for every
    ordered file list, a file's embedded chapters are emitted exactly when
    the file has chapters and none of them STARTS after the file's own
    duration (usableChaptersB); otherwise the duration fallback (or nothing,
    when fallback is disabled) is used; and all emitted chapters are
    renumbered into one global monotonic sequence s, s+1, s+2, ... whose
    start is the first emitted chapter's own number (or 1 when synthetic). -/
theorem af_C4_amended (fallBack : Bool) (files : List (Path × FileInfo)) :
    getMultipathChapterInfo fallBack files =
      (specItems fallBack files).map fun items =>
        applyNumbering (startNum items) items := by
  have h := getMultipathAux_spec fallBack files none
  simpa [getMultipathChapterInfo, baseOf] using h

theorem getMultipathAux_fallback_all :
    ∀ (files : List (Path × FileInfo)) (cnum : Option Int)
      (out : List (Path × ChapterInfo)),
      (∀ pf ∈ files, FileInfo.chaptersList pf.2 = []) →
      getMultipathAux true cnum files = some out →
      out.length = files.length ∧
      ∀ (k : Nat) (hk : k < out.length) (hk2 : k < files.length),
        (out.get ⟨k, hk⟩).1 = (files.get ⟨k, hk2⟩).1 ∧
        (out.get ⟨k, hk⟩).2.num = nextNumOpt cnum + k ∧
        (out.get ⟨k, hk⟩).2.start_time = 0 ∧
        some (out.get ⟨k, hk⟩).2.end_time =
          (files.get ⟨k, hk2⟩).2.format_info.duration
  | [], cnum, out => by
    intro _ hout
    simp only [getMultipathAux, Option.some.injEq] at hout
    subst hout
    exact ⟨rfl, fun k hk => absurd hk (by simp)⟩
  | (p, fi) :: rest, cnum, out => by
    intro hall hout
    have hfi : FileInfo.chaptersList fi = [] :=
      hall (p, fi) (List.mem_cons_self _ _)
    have hcond : ¬ (fi.chaptersList ≠ [] ∧ badChapterCheck fi = false) := by
      simp [hfi]
    rw [getMultipathAux, if_neg hcond, if_pos rfl] at hout
    cases hd : fi.format_info.duration with
    | none => rw [hd] at hout; exact absurd hout (by simp)
    | some d =>
      cases ht : fallbackTitle fi.format_info.tags p with
      | none => rw [hd, ht] at hout; exact absurd hout (by simp)
      | some t =>
        rw [hd, ht] at hout
        obtain ⟨out2, hout2, hcons⟩ := Option.map_eq_some'.mp hout
        obtain ⟨hlen, hprops⟩ :=
          getMultipathAux_fallback_all rest (some (nextNumOpt cnum)) out2
            (fun pf hpf => hall pf (List.mem_cons_of_mem _ hpf)) hout2
        subst hcons
        refine ⟨by simp [hlen], fun k hk hk2 => ?_⟩
        match k with
        | 0 =>
          refine ⟨rfl, ?_, rfl, by simp [hd]⟩
          simp
        | Nat.succ k =>
          have hk' : k < out2.length := by
            simpa using hk
          have hk2' : k < rest.length := by
            simpa using hk2
          obtain ⟨h1, h2, h3, h4⟩ := hprops k hk' hk2'
          simp only [List.get_cons_succ]
          refine ⟨h1, ?_, h3, h4⟩
          rw [h2]
          show nextNumOpt (some (nextNumOpt cnum)) + (k : Int) = _
          have : nextNumOpt (some (nextNumOpt cnum)) = nextNumOpt cnum + 1 := rfl
          rw [this]
          push_cast
          ring

/-- C8.  On files that all lack embedded chapters, resolving with the
    duration fallback yields exactly one synthetic chapter per file in file
    order, numbered consecutively starting at 1, each spanning (0, that
    file's duration). -/
theorem af_C8_duration_fallback (files : List (Path × FileInfo))
    (out : List (Path × ChapterInfo))
    (hnc : ∀ pf ∈ files, FileInfo.chaptersList pf.2 = [])
    (hout : getMultipathChapterInfo true files = some out) :
    out.length = files.length ∧
    ∀ (k : Nat) (hk : k < out.length) (hk2 : k < files.length),
      (out.get ⟨k, hk⟩).1 = (files.get ⟨k, hk2⟩).1 ∧
      (out.get ⟨k, hk⟩).2.num = (k : Int) + 1 ∧
      (out.get ⟨k, hk⟩).2.start_time = 0 ∧
      some (out.get ⟨k, hk⟩).2.end_time =
        (files.get ⟨k, hk2⟩).2.format_info.duration := by
  obtain ⟨hlen, hprops⟩ := getMultipathAux_fallback_all files none out hnc hout
  refine ⟨hlen, fun k hk hk2 => ?_⟩
  obtain ⟨h1, h2, h3, h4⟩ := hprops k hk hk2
  refine ⟨h1, ?_, h3, h4⟩
  rw [h2]
  show nextNumOpt none + (k : Int) = _
  have : nextNumOpt none = 1 := rfl
  rw [this]
  ring

theorem af_C8_witness :
    (∀ pf ∈ filesC8, FileInfo.chaptersList pf.2 = []) ∧
    getMultipathChapterInfo true filesC8 = some outC8 ∧
    (outC8.length = filesC8.length ∧
     ∀ (k : Nat) (hk : k < outC8.length) (hk2 : k < filesC8.length),
       (outC8.get ⟨k, hk⟩).1 = (filesC8.get ⟨k, hk2⟩).1 ∧
       (outC8.get ⟨k, hk⟩).2.num = (k : Int) + 1 ∧
       (outC8.get ⟨k, hk⟩).2.start_time = 0 ∧
       some (outC8.get ⟨k, hk⟩).2.end_time =
         (filesC8.get ⟨k, hk2⟩).2.format_info.duration) :=
  ⟨by decide, by with_unfolding_all decide,
   af_C8_duration_fallback filesC8 outC8 (by decide)
     (by with_unfolding_all decide)⟩

theorem chapterSplitLoop_step (lookup : Path → Option FileInfo)
    (op bn ext : String) (pool : List RenderJob) (lastFile : Option Path)
    (q : Path) (ch : ChapterInfo) (entries : List (Path × ChapterInfo))
    (fi : FileInfo) (d : ℚ)
    (hcond : ¬ (lastFile ≠ some q ∧ 0 < ch.start_time ∧ pool ≠ []))
    (hl : lookup q = some fi) (hd : fi.format_info.duration = some d) :
    ∃ job, chapterSplitLoop lookup op bn ext pool lastFile ((q, ch) :: entries) =
      chapterSplitLoop lookup op bn ext (pool ++ [job]) (some q) entries := by
  apply Exists.intro
  rw [chapterSplitLoop, if_neg hcond, hl]
  dsimp only
  rw [hd]

theorem chapterSplitLoop_same_file (lookup : Path → Option FileInfo)
    (op bn ext : String) (p : Path) (fi : FileInfo) (d : ℚ)
    (hl : lookup p = some fi) (hd : fi.format_info.duration = some d) :
    ∀ (entries : List (Path × ChapterInfo)), (∀ e ∈ entries, e.1 = p) →
      ∀ (pool : List RenderJob),
        ∃ jobs,
          chapterSplitLoop lookup op bn ext pool (some p) entries = some jobs ∧
          jobs.length = pool.length + entries.length := by
  intro entries
  induction entries with
  | nil => exact fun _ pool => ⟨pool, rfl, by simp⟩
  | cons e entries ih =>
    intro hall pool
    obtain ⟨q, ch⟩ := e
    have hq : q = p := hall (q, ch) (List.mem_cons_self _ _)
    subst hq
    obtain ⟨job, hstep⟩ :=
      chapterSplitLoop_step lookup op bn ext pool (some q) q ch entries fi d
        (by simp) hl hd
    obtain ⟨jobs, h1, h2⟩ :=
      ih (fun e he => hall e (List.mem_cons_of_mem _ he)) (pool ++ [job])
    refine ⟨jobs, by rw [hstep]; exact h1, ?_⟩
    rw [h2]
    simp only [List.length_append, List.length_cons, List.length_nil]
    omega

theorem calculateChapterSplits_single (p : Path) (fi : FileInfo)
    (husable : usableChaptersB fi = true) (d : ℚ)
    (hd : fi.format_info.duration = some d) (op bn ext : String) :
    ∃ jobs, calculateChapterSplits [(p, fi)] op bn ext = some jobs ∧
      jobs.length = fi.chaptersList.length := by
  have hc := (branch_cond_iff fi).mpr husable
  match hcl : fi.chaptersList with
  | [] => exact absurd hcl hc.1
  | c :: cs =>
    have hres : getMultipathChapterInfo false [(p, fi)] =
        some ((p, { c with num := nextNumAfter none c }) ::
          (numberChapters (nextNumAfter none c + 1) cs).map fun c => (p, c)) := by
      rw [getMultipathChapterInfo, getMultipathAux, if_pos hc, hcl,
        renumberFrom_spec]
      simp [getMultipathAux, numberChapters]
    have hlookup : Option.map Prod.snd
        (([(p, fi)] : List (Path × FileInfo)).find? fun pf => pf.1 == p) =
        some fi := by
      simp
    have hallp : ∀ e ∈ (numberChapters (nextNumAfter none c + 1) cs).map
        (fun c => (p, c)), e.1 = p := by
      intro e he
      obtain ⟨c0, -, hc0⟩ := List.mem_map.mp he
      rw [← hc0]
    obtain ⟨job, hstep⟩ :=
      chapterSplitLoop_step
        (fun q => Option.map Prod.snd
          (([(p, fi)] : List (Path × FileInfo)).find? fun pf => pf.1 == q))
        op bn ext [] none p { c with num := nextNumAfter none c }
        ((numberChapters (nextNumAfter none c + 1) cs).map fun c => (p, c))
        fi d (by simp) hlookup hd
    obtain ⟨jobs, hloop, hjlen⟩ :=
      chapterSplitLoop_same_file
        (fun q => Option.map Prod.snd
          (([(p, fi)] : List (Path × FileInfo)).find? fun pf => pf.1 == q))
        op bn ext p fi d hlookup hd
        ((numberChapters (nextNumAfter none c + 1) cs).map fun c => (p, c))
        hallp ([] ++ [job])
    refine ⟨jobs, ?_, ?_⟩
    · rw [calculateChapterSplits, hres]
      dsimp only
      rw [if_neg (by simp)]
      rw [hstep]
      exact hloop
    · rw [hjlen]
      simp only [List.length_append, List.length_nil, List.length_cons,
        List.length_map, numberChapters_length]
      omega

/-- C7 counterexample.  fileC7's second embedded chapter is degenerate
    (start = end = 5), yet the resolver emits it (renumbered) instead of
    dropping it: the claim that no emitted chapter has end ≤ start fails. -/
theorem af_C7_counterexample :
    getMultipathChapterInfo false [("f", fileC7)] =
      some [("f", ⟨1, 0, 5, none, []⟩), ("f", ⟨2, 5, 5, none, []⟩)] ∧
    ("f", (⟨2, 5, 5, none, []⟩ : ChapterInfo)) ∈
      [(("f" : Path), (⟨1, 0, 5, none, []⟩ : ChapterInfo)),
       ("f", ⟨2, 5, 5, none, []⟩)] ∧
    (⟨2, 5, 5, none, []⟩ : ChapterInfo).end_time ≤
      (⟨2, 5, 5, none, []⟩ : ChapterInfo).start_time := by
  with_unfolding_all decide

/-- C7 as amended.  Degenerate chapters (end ≤ start) are NOT dropped and no
    warning is logged: the chapter resolver propagates every chapter of a
    usable file, including degenerate ones (renumbered like any other), and
    the chapter-split planner produces one render job per resolved chapter
    with none skipped. -/
theorem af_C7_degenerate_propagation (fallBack : Bool) (p : Path)
    (fi : FileInfo) (c : ChapterInfo) (hmem : c ∈ fi.chaptersList)
    (husable : usableChaptersB fi = true) (hdeg : c.end_time ≤ c.start_time)
    (d : ℚ) (hd : fi.format_info.duration = some d) (op bn ext : String) :
    (∃ out, getMultipathChapterInfo fallBack [(p, fi)] = some out ∧
      out.length = fi.chaptersList.length ∧
      ∃ n, (p, { c with num := n }) ∈ out) ∧
    (∃ jobs, calculateChapterSplits [(p, fi)] op bn ext = some jobs ∧
      jobs.length = fi.chaptersList.length) := by
  constructor
  · have hc := (branch_cond_iff fi).mpr husable
    have hres : getMultipathChapterInfo fallBack [(p, fi)] =
        some ((renumberFrom none fi.chaptersList).1.map fun c => (p, c)) := by
      rw [getMultipathChapterInfo, getMultipathAux, if_pos hc]
      simp [getMultipathAux]
    match hcl : fi.chaptersList with
    | [] => exact absurd hcl hc.1
    | c1 :: cs =>
      rw [hcl] at hres
      rw [renumberFrom_spec] at hres
      refine ⟨_, hres, ?_, ?_⟩
      · rw [List.length_map, numberChapters_length]
      · rw [hcl] at hmem
        obtain ⟨n, hn⟩ := numberChapters_mem (c1 :: cs) (nextNumAfter none c1) c hmem
        exact ⟨n, List.mem_map.mpr ⟨_, hn, rfl⟩⟩
  · exact calculateChapterSplits_single p fi husable d hd op bn ext

theorem af_C7_witness :
    ((⟨2, 5, 5, none, []⟩ : ChapterInfo) ∈ fileC7.chaptersList) ∧
    usableChaptersB fileC7 = true ∧
    ((5 : ℚ) ≤ 5) ∧
    fileC7.format_info.duration = some 10 ∧
    ((∃ out, getMultipathChapterInfo true [("f", fileC7)] = some out ∧
       out.length = fileC7.chaptersList.length ∧
       ∃ n, ("f", ({ (⟨2, 5, 5, none, []⟩ : ChapterInfo) with num := n } :
         ChapterInfo)) ∈ out) ∧
     (∃ jobs, calculateChapterSplits [("f", fileC7)] "out" "Chapter" ".mp3" =
        some jobs ∧ jobs.length = fileC7.chaptersList.length)) :=
  ⟨by decide, by with_unfolding_all decide, by decide, by decide,
   af_C7_degenerate_propagation true "f" fileC7 ⟨2, 5, 5, none, []⟩
     (by decide) (by with_unfolding_all decide) (by decide) 10 (by decide)
     "out" "Chapter" ".mp3"⟩

theorem get?_append_left_of_not_mem {α : Type} {l1 l2 : List α} {i : Nat}
    {x : α} (h : (l1 ++ l2).get? i = some x) (hx : x ∉ l2) : i < l1.length := by
  by_contra hge
  rw [not_lt] at hge
  rw [List.get?_append_right hge] at h
  exact hx (List.get?_mem h)

theorem get?_append_right_of_not_mem {α : Type} {l1 l2 : List α} {j : Nat}
    {x : α} (h : (l1 ++ l2).get? j = some x) (hx : x ∉ l1) : l1.length ≤ j := by
  by_contra hlt
  rw [not_le] at hlt
  rw [List.get?_append hlt] at h
  exact hx (List.get?_mem h)

/-- C2 counterexample.  Triggering a render with one non-copy job produces
    the event trace [admit, clearStale, submitJob 0, spawnCallback,
    writeMetadata]: the job is submitted to the executor BEFORE the
    .file_metadata sidecar is written, refuting the claim that the sidecar
    write precedes every job submission. -/
theorem af_C2_counterexample :
    RenderEvent.submitJob 0 ∈ triggerEvents false false [nonCopyJob] ∧
    RenderEvent.writeMetadata ∈ triggerEvents false false [nonCopyJob] ∧
    ¬ (triggerEvents false false [nonCopyJob]).indexOf RenderEvent.writeMetadata <
        (triggerEvents false false [nonCopyJob]).indexOf (RenderEvent.submitJob 0) := by
  with_unfolding_all decide

/-- C2 as amended.  In every trigger_rendering invocation the metadata/hash
    sidecar is written AFTER every job submission (and after spawning the
    completion callback), still within the same invocation before it
    returns: every submitJob event strictly precedes the writeMetadata
    event in the trace. -/
theorem af_C2_amended (keyActive renderComplete : Bool) (jobs : List RenderJob)
    (i j k : Nat)
    (hi : (triggerEvents keyActive renderComplete jobs).get? i =
      some (RenderEvent.submitJob k))
    (hj : (triggerEvents keyActive renderComplete jobs).get? j =
      some RenderEvent.writeMetadata) :
    i < j := by
  by_cases hskip : (keyActive || renderComplete) = true
  · have h0 : triggerEvents keyActive renderComplete jobs = [] := by
      rw [triggerEvents, if_pos hskip]
    rw [h0] at hi
    simp at hi
  · have hsplit : triggerEvents keyActive renderComplete jobs =
        ([RenderEvent.admitKey, RenderEvent.clearStale] ++
          (if jobs.all RenderJob.is_copy_job then [RenderEvent.markDefault]
           else (List.range jobs.length).map RenderEvent.submitJob) ++
          [RenderEvent.spawnCallback]) ++ [RenderEvent.writeMetadata] := by
      rw [triggerEvents, if_neg hskip]
      simp
    rw [hsplit] at hi hj
    have hiw := get?_append_left_of_not_mem hi (by simp)
    have hwnot : RenderEvent.writeMetadata ∉
        ([RenderEvent.admitKey, RenderEvent.clearStale] ++
          (if jobs.all RenderJob.is_copy_job then [RenderEvent.markDefault]
           else (List.range jobs.length).map RenderEvent.submitJob) ++
          [RenderEvent.spawnCallback]) := by
      intro hmem
      rcases List.mem_append.mp hmem with hm | hm
      · rcases List.mem_append.mp hm with hm2 | hm2
        · simp at hm2
        · split_ifs at hm2
          · simp at hm2
          · obtain ⟨n, -, hn⟩ := List.mem_map.mp hm2
            exact RenderEvent.noConfusion hn
      · simp at hm
    have hjw := get?_append_right_of_not_mem hj hwnot
    exact lt_of_lt_of_le hiw hjw

theorem af_C2_amended_witness :
    (triggerEvents false false [nonCopyJob]).get? 2 =
      some (RenderEvent.submitJob 0) ∧
    (triggerEvents false false [nonCopyJob]).get? 4 =
      some RenderEvent.writeMetadata ∧
    2 < 4 :=
  ⟨by with_unfolding_all decide, by with_unfolding_all decide,
   af_C2_amended false false [nonCopyJob] 2 4 0
     (by with_unfolding_all decide) (by with_unfolding_all decide)⟩

theorem pyMin_mem (cs : List MemoEntry) : ∀ c, pyMin c cs ∈ c :: cs := by
  induction cs with
  | nil => intro c; simp [pyMin]
  | cons e cs ih =>
    intro c
    have hstep : pyMin c (e :: cs) = pyMin (if entryLt e c then e else c) cs := rfl
    rw [hstep]
    rcases List.mem_cons.mp (ih (if entryLt e c then e else c)) with h1 | h2
    · rw [h1]
      split_ifs
      · exact List.mem_cons_of_mem _ (List.mem_cons_self _ _)
      · exact List.mem_cons_self _ _
    · exact List.mem_cons_of_mem _ (List.mem_cons_of_mem _ h2)

theorem entryLt_score {a b : MemoEntry} (h : entryLt a b = true) :
    a.score ≤ b.score := by
  unfold entryLt at h
  simp only [Bool.or_eq_true, decide_eq_true_eq, Bool.and_eq_true] at h
  rcases h with h | ⟨h, -⟩
  · exact le_of_lt h
  · exact le_of_eq h

theorem entryLt_not_score {a b : MemoEntry} (h : entryLt a b = false) :
    b.score ≤ a.score := by
  by_contra hlt
  rw [not_le] at hlt
  unfold entryLt at h
  simp [hlt] at h

theorem pyMin_score_le (cs : List MemoEntry) :
    ∀ c, ∀ e ∈ c :: cs, (pyMin c cs).score ≤ e.score := by
  induction cs with
  | nil =>
    intro c e he
    rcases List.mem_cons.mp he with rfl | h
    · simp [pyMin]
    · simp at h
  | cons e0 cs ih =>
    intro c e he
    have hstep : pyMin c (e0 :: cs) = pyMin (if entryLt e0 c then e0 else c) cs := rfl
    rw [hstep]
    have hhead := ih (if entryLt e0 c then e0 else c) _ (List.mem_cons_self _ _)
    have hmin_le_c : (pyMin (if entryLt e0 c then e0 else c) cs).score ≤ c.score := by
      refine le_trans hhead ?_
      split_ifs with hlt
      · exact entryLt_score hlt
      · exact le_refl _
    have hmin_le_e0 : (pyMin (if entryLt e0 c then e0 else c) cs).score ≤ e0.score := by
      refine le_trans hhead ?_
      split_ifs with hlt
      · exact le_refl _
      · exact entryLt_not_score (Bool.eq_false_iff.mpr hlt)
    rcases List.mem_cons.mp he with rfl | he2
    · exact hmin_le_c
    rcases List.mem_cons.mp he2 with rfl | he3
    · exact hmin_le_e0
    · exact ih _ _ (List.mem_cons_of_mem _ he3)

theorem memoTable_length (cost : List α → ℚ) (values : List α) :
    ∀ i, (memoTable cost values i).length = i + 1
  | 0 => rfl
  | i + 1 => by
    have ih := memoTable_length cost values i
    show (memoTable cost values i ++ [_]).length = i + 1 + 1
    simp [ih]

theorem memoTable_getD_stable (cost : List α → ℚ) (values : List α)
    (i j : Nat) (hj : j ≤ i) :
    (memoTable cost values (i + 1)).getD j default =
      (memoTable cost values i).getD j default := by
  have hlen : j < (memoTable cost values i).length := by
    rw [memoTable_length]
    omega
  obtain ⟨x, hx⟩ : ∃ x, memoTable cost values (i + 1) =
      memoTable cost values i ++ [x] := ⟨_, rfl⟩
  rw [hx, List.getD_eq_get?, List.getD_eq_get?, List.get?_append hlen]

theorem memoAt_eq_getD (cost : List α → ℚ) (values : List α) :
    ∀ (k i : Nat), i ≤ k →
      (memoTable cost values k).getD i default = memoAt cost values i := by
  intro k
  induction k with
  | zero =>
    intro i h
    have h0 : i = 0 := Nat.le_zero.mp h
    subst h0
    rfl
  | succ k ih =>
    intro i h
    rcases Nat.eq_or_lt_of_le h with heq | hlt
    · subst heq
      rfl
    · have hik : i ≤ k := by omega
      rw [memoTable_getD_stable cost values k i hik]
      exact ih i hik

theorem memoAt_succ (cost : List α → ℚ) (values : List α) (i : Nat) :
    memoAt cost values (i + 1) =
      (match (List.range (i + 1)).map (fun j =>
          MemoEntry.mk ((memoAt cost values j).score +
            cost (pySlice values j (i + 1))) (some j)) with
        | [] => default
        | c :: cs => pyMin c cs) := by
  have hx : memoTable cost values (i + 1) = memoTable cost values i ++
      [match (List.range (i + 1)).map (fun j =>
          MemoEntry.mk (((memoTable cost values i).getD j default).score +
            cost (pySlice values j (i + 1))) (some j)) with
        | [] => default
        | c :: cs => pyMin c cs] := rfl
  have hmapeq : (List.range (i + 1)).map (fun j =>
      MemoEntry.mk (((memoTable cost values i).getD j default).score +
        cost (pySlice values j (i + 1))) (some j)) =
      (List.range (i + 1)).map (fun j =>
        MemoEntry.mk ((memoAt cost values j).score +
          cost (pySlice values j (i + 1))) (some j)) := by
    apply List.map_congr_left
    intro j hj
    rw [memoAt_eq_getD cost values i j
      (Nat.lt_succ_iff.mp (List.mem_range.mp hj))]
  rw [memoAt, hx, List.getD_eq_get?,
    List.get?_append_right (by simp [memoTable_length]),
    memoTable_length, Nat.sub_self, hmapeq]
  rfl

theorem candidates_ne_nil (cost : List α → ℚ) (values : List α) (i : Nat) :
    (List.range (i + 1)).map (fun j =>
      MemoEntry.mk ((memoAt cost values j).score +
        cost (pySlice values j (i + 1))) (some j)) ≠ [] := by
  simp [List.range_succ]

theorem memoAt_mem_candidates (cost : List α → ℚ) (values : List α) (i : Nat) :
    memoAt cost values (i + 1) ∈ (List.range (i + 1)).map (fun j =>
      MemoEntry.mk ((memoAt cost values j).score +
        cost (pySlice values j (i + 1))) (some j)) := by
  rw [memoAt_succ]
  match hcand : (List.range (i + 1)).map (fun j =>
      MemoEntry.mk ((memoAt cost values j).score +
        cost (pySlice values j (i + 1))) (some j)) with
  | [] => exact absurd hcand (candidates_ne_nil cost values i)
  | c :: cs => exact pyMin_mem cs c

theorem memoAt_le_candidate (cost : List α → ℚ) (values : List α)
    (i j : Nat) (hj : j < i + 1) :
    (memoAt cost values (i + 1)).score ≤
      (memoAt cost values j).score + cost (pySlice values j (i + 1)) := by
  have hmem : MemoEntry.mk ((memoAt cost values j).score +
      cost (pySlice values j (i + 1))) (some j) ∈
      (List.range (i + 1)).map (fun j =>
        MemoEntry.mk ((memoAt cost values j).score +
          cost (pySlice values j (i + 1))) (some j)) :=
    List.mem_map.mpr ⟨j, List.mem_range.mpr hj, rfl⟩
  rw [memoAt_succ]
  match hcand : (List.range (i + 1)).map (fun j =>
      MemoEntry.mk ((memoAt cost values j).score +
        cost (pySlice values j (i + 1))) (some j)) with
  | [] => exact absurd hcand (candidates_ne_nil cost values i)
  | c :: cs =>
    rw [hcand] at hmem
    exact pyMin_score_le cs c _ hmem

theorem memoAt_prev_spec (cost : List α → ℚ) (values : List α)
    (i : Nat) {j : Nat} (hprev : (memoAt cost values (i + 1)).prev = some j) :
    j < i + 1 ∧ (memoAt cost values (i + 1)).score =
      (memoAt cost values j).score + cost (pySlice values j (i + 1)) := by
  have hmem := memoAt_mem_candidates cost values i
  obtain ⟨j0, hj0, hj0eq⟩ := List.mem_map.mp hmem
  have hprev0 : (memoAt cost values (i + 1)).prev = some j0 := by
    rw [← hj0eq]
  have hj : j0 = j := by
    rw [hprev0] at hprev
    exact Option.some.inj hprev
  subst hj
  refine ⟨List.mem_range.mp hj0, ?_⟩
  rw [← hj0eq]

theorem memoAt_prev_isSome (cost : List α → ℚ) (values : List α) (i : Nat) :
    ∃ j, (memoAt cost values (i + 1)).prev = some j := by
  have hmem := memoAt_mem_candidates cost values i
  obtain ⟨j0, -, hj0eq⟩ := List.mem_map.mp hmem
  exact ⟨j0, by rw [← hj0eq]⟩

theorem memoAt_prev_lt (cost : List α → ℚ) (values : List α) :
    ∀ (i : Nat) {j : Nat}, (memoAt cost values i).prev = some j → j < i
  | 0, j => by
    intro h
    exact absurd h (by simp [memoAt, memoTable])
  | i + 1, j => fun h => (memoAt_prev_spec cost values i h).1

theorem memoAt_le_partition (cost : List α → ℚ) (values : List α) :
    ∀ i, i ≤ values.length → ∀ P, IsSegmentation P (values.take i) →
      (memoAt cost values i).score ≤ totalCost cost P := by
  intro i
  induction i using Nat.strong_induction_on with
  | _ i ih =>
    intro hi P hP
    obtain ⟨hjoin, hne⟩ := hP
    cases i with
    | zero =>
      have hP0 : P = [] := by
        cases P with
        | nil => rfl
        | cons g P2 =>
          exfalso
          rw [List.take_zero] at hjoin
          have hlenj := congrArg List.length hjoin
          simp only [List.flatten_cons, List.length_append,
            List.length_nil] at hlenj
          exact hne g (List.mem_cons_self _ _)
            (List.length_eq_zero.mp (by omega))
      subst hP0
      simp [totalCost, memoAt, memoTable]
    | succ i0 =>
      have htake : (values.take (i0 + 1)).length = i0 + 1 := by
        rw [List.length_take]
        omega
      rcases List.eq_nil_or_concat' P with rfl | ⟨P2, g, rfl⟩
      · exfalso
        have hlenj := congrArg List.length hjoin
        simp [htake] at hlenj
      · have hgne : g ≠ [] := hne g (by simp)
        have hjoin2 : P2.flatten ++ g = values.take (i0 + 1) := by
          simpa using hjoin
        have hglen : 0 < g.length := List.length_pos.mpr hgne
        obtain ⟨j, hj⟩ : ∃ j, P2.flatten.length = j := ⟨_, rfl⟩
        have hlen2 : j + g.length = i0 + 1 := by
          have hl := congrArg List.length hjoin2
          simp only [List.length_append, htake, hj] at hl
          exact hl
        have hjlt : j < i0 + 1 := by omega
        have hPj : P2.flatten = values.take j := by
          have h1 : (P2.flatten ++ g).take j = P2.flatten := by
            rw [← hj]
            exact List.take_left _ _
          rw [hjoin2, List.take_take, min_eq_left (le_of_lt hjlt)] at h1
          exact h1.symm
        have hg : g = pySlice values j (i0 + 1) := by
          have h1 : (P2.flatten ++ g).drop j = g := by
            rw [← hj]
            exact List.drop_left _ _
          rw [hjoin2] at h1
          rw [← h1, List.drop_take]
          rfl
        have hIH := ih j hjlt (by omega) P2
          ⟨hPj, fun g2 hg2 => hne g2 (List.mem_append_left _ hg2)⟩
        have hrec := memoAt_le_candidate cost values i0 j hjlt
        have hcost : totalCost cost (P2 ++ [g]) =
            totalCost cost P2 + cost g := by
          simp [totalCost]
        rw [hcost, hg]
        calc (memoAt cost values (i0 + 1)).score
            ≤ (memoAt cost values j).score + cost (pySlice values j (i0 + 1)) :=
              hrec
          _ ≤ totalCost cost P2 + cost (pySlice values j (i0 + 1)) := by
              linarith [hIH]

theorem backtrack_zero (cost : List α → ℚ) (values : List α) :
    ∀ fuel, backtrack cost values fuel 0 = [0] := by
  intro fuel
  cases fuel with
  | zero => rfl
  | succ f =>
    show (match (memoAt cost values 0).prev with
      | none => [0]
      | some j => 0 :: backtrack cost values f j) = [0]
    have h0 : (memoAt cost values 0).prev = none := rfl
    rw [h0]

theorem backtrack_canonical (cost : List α → ℚ) (values : List α) :
    ∀ fuel, ∀ i ≤ fuel, backtrack cost values fuel i = backtrack cost values i i := by
  intro fuel
  induction fuel using Nat.strong_induction_on with
  | _ fuel ih =>
    intro i hi
    cases i with
    | zero => rw [backtrack_zero, backtrack_zero]
    | succ i0 =>
      cases fuel with
      | zero => omega
      | succ f =>
        obtain ⟨j, hprev⟩ := memoAt_prev_isSome cost values i0
        have hjlt : j < i0 + 1 := memoAt_prev_lt cost values (i0 + 1) hprev
        have h1 : backtrack cost values (f + 1) (i0 + 1) =
            (i0 + 1) :: backtrack cost values f j := by
          show (match (memoAt cost values (i0 + 1)).prev with
            | none => [i0 + 1]
            | some j => (i0 + 1) :: backtrack cost values f j) = _
          rw [hprev]
        have h2 : backtrack cost values (i0 + 1) (i0 + 1) =
            (i0 + 1) :: backtrack cost values i0 j := by
          show (match (memoAt cost values (i0 + 1)).prev with
            | none => [i0 + 1]
            | some j => (i0 + 1) :: backtrack cost values i0 j) = _
          rw [hprev]
        rw [h1, h2]
        have hf : backtrack cost values f j = backtrack cost values j j :=
          ih f (by omega) j (by omega)
        have hf2 : backtrack cost values i0 j = backtrack cost values j j :=
          ih i0 (by omega) j (by omega)
        rw [hf, hf2]

theorem ascSlices_cons_cons (values : List α) (b0 b1 : Nat) (L : List Nat) :
    ascSlices values (b0 :: b1 :: L) =
      pySlice values b0 b1 :: ascSlices values (b1 :: L) := rfl

theorem ascSlices_concat (values : List α) :
    ∀ (breaks : List Nat) (b x : Nat), breaks.getLast? = some b →
      ascSlices values (breaks ++ [x]) =
        ascSlices values breaks ++ [pySlice values b x]
  | [], b, x => by
    intro h
    exact absurd h (by simp)
  | [b0], b, x => by
    intro h
    have hb : b0 = b := by simpa using h
    subst hb
    rfl
  | b0 :: b1 :: bs, b, x => by
    intro h
    rw [List.getLast?_cons_cons] at h
    have ih := ascSlices_concat values (b1 :: bs) b x h
    simp only [List.cons_append] at ih
    show ascSlices values (b0 :: b1 :: (bs ++ [x])) = _
    rw [ascSlices_cons_cons, ih]
    rfl

theorem pySlice_ne_nil (values : List α) (j i : Nat) (hji : j < i)
    (hi : i ≤ values.length) : pySlice values j i ≠ [] := by
  have hlen : (pySlice values j i).length = min (i - j) (values.length - j) := by
    simp [pySlice]
  intro hnil
  rw [hnil] at hlen
  simp at hlen
  omega

theorem backtrack_master (cost : List α → ℚ) (values : List α) :
    ∀ i, i ≤ values.length →
      (backtrack cost values i i).reverse.head? = some 0 ∧
      (backtrack cost values i i).reverse.getLast? = some i ∧
      (ascSlices values (backtrack cost values i i).reverse).flatten =
        values.take i ∧
      totalCost cost (ascSlices values (backtrack cost values i i).reverse) =
        (memoAt cost values i).score ∧
      (∀ g ∈ ascSlices values (backtrack cost values i i).reverse, g ≠ []) := by
  intro i
  induction i using Nat.strong_induction_on with
  | _ i ih =>
    intro hi
    cases i with
    | zero =>
      refine ⟨rfl, rfl, rfl, ?_, ?_⟩
      · show totalCost cost [] = (0 : ℚ)
        simp [totalCost]
      · intro g hg
        simp [ascSlices, backtrack] at hg
    | succ i0 =>
      obtain ⟨j, hprev⟩ := memoAt_prev_isSome cost values i0
      have hjlt : j < i0 + 1 := memoAt_prev_lt cost values (i0 + 1) hprev
      have hbt : backtrack cost values (i0 + 1) (i0 + 1) =
          (i0 + 1) :: backtrack cost values j j := by
        have h1 : backtrack cost values (i0 + 1) (i0 + 1) =
            (i0 + 1) :: backtrack cost values i0 j := by
          show (match (memoAt cost values (i0 + 1)).prev with
            | none => [i0 + 1]
            | some j => (i0 + 1) :: backtrack cost values i0 j) = _
          rw [hprev]
        rw [h1, backtrack_canonical cost values i0 j (by omega)]
      obtain ⟨hhead, hlast, hflat, hcost, hgroups⟩ :=
        ih j hjlt (by omega)
      have hrev : (backtrack cost values (i0 + 1) (i0 + 1)).reverse =
          (backtrack cost values j j).reverse ++ [i0 + 1] := by
        rw [hbt, List.reverse_cons]
      have hslices : ascSlices values
          ((backtrack cost values j j).reverse ++ [i0 + 1]) =
          ascSlices values (backtrack cost values j j).reverse ++
            [pySlice values j (i0 + 1)] :=
        ascSlices_concat values _ j (i0 + 1) hlast
      have hrevne : (backtrack cost values j j).reverse ≠ [] := by
        intro hn
        rw [hn] at hhead
        exact Option.noConfusion hhead
      have hscore := (memoAt_prev_spec cost values i0 hprev).2
      refine ⟨?_, ?_, ?_, ?_, ?_⟩
      · rw [hrev]
        rw [List.head?_append_of_ne_nil _ hrevne]
        exact hhead
      · rw [hrev]
        exact List.getLast?_concat _
      · rw [hrev, hslices, List.flatten_append, hflat]
        simp only [List.flatten_cons, List.flatten_nil, List.append_nil]
        have ht := List.take_add values j (i0 + 1 - j)
        rw [show j + (i0 + 1 - j) = i0 + 1 by omega] at ht
        rw [ht]
        rfl
      · rw [hrev, hslices]
        show totalCost cost (_ ++ [_]) = _
        rw [show ∀ (S : List (List α)) (g : List α), totalCost cost (S ++ [g]) =
            totalCost cost S + cost g from fun S g => by simp [totalCost]]
        rw [hcost, hscore]
      · rw [hrev, hslices]
        intro g hg
        rcases List.mem_append.mp hg with hg1 | hg2
        · exact hgroups g hg1
        · have : g = pySlice values j (i0 + 1) := by simpa using hg2
          rw [this]
          exact pySlice_ne_nil values j (i0 + 1) hjlt hi

/-- C1.  The dynamic-programming segmenter is globally optimal: for every
    non-empty input and every cost function, segment(values, cost) is an
    ordered partition of the input into contiguous non-empty groups whose
    total cost (sum of the cost of its groups) is less than or equal to the
    total cost of EVERY such partition — hence equal to the minimum, not a
    greedy approximation. -/
theorem af_C1_segment_optimal (cost : List α → ℚ) (values : List α)
    (hne : values ≠ []) :
    IsSegmentation (segment values cost) values ∧
    ∀ P, IsSegmentation P values →
      totalCost cost (segment values cost) ≤ totalCost cost P := by
  obtain ⟨-, -, hflat, hcost, hgroups⟩ :=
    backtrack_master cost values values.length le_rfl
  rw [List.take_length] at hflat
  constructor
  · exact ⟨hflat, hgroups⟩
  · intro P hP
    have hlow := memoAt_le_partition cost values values.length le_rfl P
      (by rwa [List.take_length])
    have hseg : totalCost cost (segment values cost) =
        (memoAt cost values values.length).score := hcost
    rw [hseg]
    exact hlow

theorem af_C1_witness :
    (([60, 1, 59] : List ℚ) ≠ []) ∧
    (IsSegmentation (segment ([60, 1, 59] : List ℚ) costW) [60, 1, 59] ∧
     ∀ P, IsSegmentation P ([60, 1, 59] : List ℚ) →
       totalCost costW (segment ([60, 1, 59] : List ℚ) costW) ≤
         totalCost costW P) :=
  ⟨by decide, af_C1_segment_optimal costW [60, 1, 59] (by decide)⟩

end AudioFeeder
